import Mathlib

/-!
Shallow embedding of the layer-reverse extraction engine of
`pkg/image/extract.go` (function `Extract`): the data model, the path
handling (`filepath.Clean`, `strings.TrimPrefix`), the per-entry target
scan, the per-layer tar entry loop, the reverse-order layer walk and the
final result reporter.  Streams are modelled as lists, fallible steps as
`Except`, and the two fallible sink writes (`tw.WriteHeader`,
`io.Copy(tw, tarReader)`) as per-entry oracles carried by the entry.
-/

namespace ImgExtract

/-- Tar entry type flag: `tar.TypeDir`, a regular file, or any other type.
`Extract` only ever branches on whether the flag is `TypeDir`. -/
inductive TypeFlag
  | dir
  | reg
  | other
deriving DecidableEq, Repr, Inhabited

/-- Decoded tar header: the fields of `tar.Header` that `Extract` reads
(`Name`, `Typeflag`, `Size`). -/
structure Header where
  name : String
  typeflag : TypeFlag
  size : Nat
deriving DecidableEq, Repr, Inhabited

/-- One decoded entry of a layer stream, together with the sink's write
oracle for it: `wHdrOk` tells whether `tw.WriteHeader` would succeed on
this entry, `wCopyOk` whether `io.Copy(tw, tarReader)` would succeed. -/
structure Entry where
  header : Header
  wHdrOk : Bool
  wCopyOk : Bool
deriving DecidableEq, Repr

/-- An item yielded by `tarReader.Next()`: either a decoded entry, or a
non-EOF decode error (the `reading tar` failure). -/
inductive TItem
  | ent (e : Entry)
  | decodeErr
deriving DecidableEq, Repr

/-- A layer: `layer.Uncompressed()` either fails (`none`) or yields the
stream of tar items. -/
abbrev Layer := Option (List TItem)

/-- The image handle: `img.Layers()` either fails (`none`) or yields the
layer list, index 0 = oldest (bottom), last = newest (top). -/
structure Img where
  layersRes : Option (List Layer)
deriving DecidableEq, Repr

/-- `v1alpha1.FileSpec`: the `From` and `To` paths of one requested file. -/
structure FileSpec where
  From : String
  To : String
deriving DecidableEq, Repr, Inhabited

/-- An entry of the output archive: the header written by `tw.WriteHeader`
plus whether the following `io.Copy` wrote the full content. -/
structure AEntry where
  header : Header
  complete : Bool
deriving DecidableEq, Repr

/-- Errors returned by `Extract`, one per `return nil, err` site of the
source: layer enumeration, destination creation, layer stream opening and
tar decoding. -/
inductive ExtractErr
  | layersErr
  | createErr
  | uncompressedErr
  | tarErr
deriving DecidableEq, Repr

/-- Walk state: `processed` models the key set of the Go map
`processedTargets`, `archive` the entries written to the tar writer,
`found` is `foundLen`, and `accessed` counts how many layer streams were
opened (`layer.Uncompressed()` calls made by the walk). -/
structure WState where
  processed : List String
  archive : List AEntry
  found : Nat
  accessed : Nat
deriving DecidableEq, Repr, Inhabited

/-- Key insertion into the `processedTargets` map
(`processedTargets[k] = struct{}{}`): inserting an existing key leaves the
key set unchanged. -/
def insertKey (k : String) (m : List String) : List String :=
  if k ∈ m then m else k :: m

/-- Models `strings.TrimPrefix(s, "/")`: drop one leading separator when
present, otherwise return the string unchanged. -/
def trimSlash (s : String) : String :=
  match s.data with
  | '/' :: rest => String.mk rest
  | _ => s

/-- Character-level split on the separator, keeping empty components, as
the component scan of `filepath.Clean` sees them. -/
def splitSlashAux : List Char → List Char → List String
  | [], cur => [String.mk cur.reverse]
  | c :: cs, cur =>
    if c = '/' then String.mk cur.reverse :: splitSlashAux cs []
    else splitSlashAux cs (c :: cur)

/-- Split a path into its separator-delimited components. -/
def splitSlash (s : String) : List String :=
  splitSlashAux s.data []

/-- One step of the component stack of `filepath.Clean`: empty and `.`
components are dropped; `..` pops a real component, is dropped at the
root, and is accumulated otherwise. -/
def cleanStep (rooted : Bool) (stack : List String) (c : String) : List String :=
  if c = "" ∨ c = "." then stack
  else if c = ".." then
    match stack with
    | [] => if rooted then [] else [".."]
    | top :: rest => if top = ".." then c :: top :: rest else rest
  else c :: stack

/-- Join components with the separator. -/
def joinSlash : List String → String
  | [] => ""
  | [x] => x
  | x :: xs => x ++ "/" ++ joinSlash xs

/-- Models `filepath.Clean` (Go, `/` separator) through the equivalent
component-stack algorithm: purely lexical processing that removes repeated
separators, `.` components and trailing separators, resolves `..`, and
returns `.` for an empty result. -/
def clean (p : String) : String :=
  if p = "" then "."
  else
    let rooted := match p.data with | '/' :: _ => true | _ => false
    let comps := (splitSlash p).foldl (cleanStep rooted) []
    let body := joinSlash comps.reverse
    if rooted then (if body = "" then "/" else "/" ++ body)
    else (if body = "" then "." else body)

/-- The scan over `platform.Files` for one already-`Clean`ed header: on a
path match the raw `target.From` is put into `processedTargets`; then the
header and the content are written; a failing write `continue`s with the
remaining targets, and a fully successful write increments `foundLen` and
`break`s out of the scan. -/
def scanTargets (hdr : Header) (wh wc : Bool) : List FileSpec → WState → WState
  | [], s => s
  | t :: ts, s =>
    if hdr.name = trimSlash t.From then
      let s1 := { s with processed := insertKey t.From s.processed }
      if wh then
        let s2 := { s1 with archive := s1.archive ++ [⟨hdr, wc⟩] }
        if wc then { s2 with found := s2.found + 1 }
        else scanTargets hdr wh wc ts s2
      else scanTargets hdr wh wc ts s1
    else scanTargets hdr wh wc ts s

/-- The entry loop over one layer's tar stream (`tarReader.Next()` until
`io.EOF`): skips directory entries, zero-size entries, entries whose
cleaned name is empty, and names already in `processedTargets`; otherwise
scans the target list and then stops early when `foundLen` reaches the
target count.  A decode error aborts the whole extraction. -/
def procItems (files : List FileSpec) : List TItem → WState → Except ExtractErr WState
  | [], s => .ok s
  | .decodeErr :: _, _ => .error .tarErr
  | .ent e :: rest, s =>
    if e.header.typeflag = .dir then procItems files rest s
    else if e.header.size = 0 then procItems files rest s
    else
      let nm := clean e.header.name
      if nm.length = 0 then procItems files rest s
      else if nm ∈ s.processed then procItems files rest s
      else
        let s' := scanTargets { e.header with name := nm } e.wHdrOk e.wCopyOk files s
        if s'.found = files.length then .ok s'
        else procItems files rest s'

/-- The reverse layer walk (`for i := len(layers)-1; i >= 0; i--`): the
input list is already reversed, so its head is the newest layer.  Before
opening each stream the walk stops if `foundLen` equals the target
count. -/
def walkRev (files : List FileSpec) : List Layer → WState → Except ExtractErr WState
  | [], s => .ok s
  | L :: rest, s =>
    if s.found = files.length then .ok s
    else
      let s0 := { s with accessed := s.accessed + 1 }
      match L with
      | none => .error .uncompressedErr
      | some items =>
        match procItems files items s0 with
        | .error e => .error e
        | .ok s1 => walkRev files rest s1

/-- The result loop at the end of `Extract`: the sub-list of
`platform.Files` whose raw `From` is a key of `processedTargets`, in the
original declaration order. -/
def reportLocations (processed : List String) : List FileSpec → List FileSpec
  | [] => []
  | f :: fs =>
    if f.From ∈ processed then f :: reportLocations processed fs
    else reportLocations processed fs

/-- `Extract`: enumerate the layers, create the destination file, walk the
layers newest-first and report the found locations.  The second component
of a successful result is the final walk state (archive entries written,
`processedTargets` keys, `foundLen`, and the opened stream count). -/
def extract (img : Img) (files : List FileSpec) (createOk : Bool) :
    Except ExtractErr (List FileSpec × WState) :=
  match img.layersRes with
  | none => .error .layersErr
  | some layers =>
    if createOk then
      match walkRev files layers.reverse ⟨[], [], 0, 0⟩ with
      | .error e => .error e
      | .ok s => .ok (reportLocations s.processed files, s)
    else .error .createErr

/-- Target `/usr/bin/foo`, declared with a leading separator as the spec
prescribes. -/
def fooSpec : FileSpec := ⟨"/usr/bin/foo", "/usr/bin/foo"⟩

/-- Target `/usr/bin/bar`. -/
def barSpec : FileSpec := ⟨"/usr/bin/bar", "/usr/bin/bar"⟩

/-- Target `/usr/bin/missing`, present in no layer. -/
def missingSpec : FileSpec := ⟨"/usr/bin/missing", "/usr/bin/missing"⟩

/-- Target `/usr/bin/zzz`, present in no layer. -/
def zzzSpec : FileSpec := ⟨"/usr/bin/zzz", "/usr/bin/zzz"⟩

/-- Top layer of the end-to-end scenario: a directory `etc/`, a 12-byte
`usr/bin/foo` and a zero-byte `usr/bin/bar`. -/
def topLayerC2 : Layer := some [
  .ent ⟨⟨"etc/", .dir, 0⟩, true, true⟩,
  .ent ⟨⟨"usr/bin/foo", .reg, 12⟩, true, true⟩,
  .ent ⟨⟨"usr/bin/bar", .reg, 0⟩, true, true⟩]

/-- Bottom layer of the end-to-end scenario: a 5-byte `usr/bin/foo` and a
3-byte `usr/bin/bar`. -/
def botLayerC2 : Layer := some [
  .ent ⟨⟨"usr/bin/foo", .reg, 5⟩, true, true⟩,
  .ent ⟨⟨"usr/bin/bar", .reg, 3⟩, true, true⟩]

/-- The two-layer image of the end-to-end scenario (index 0 = bottom). -/
def imgC2 : Img := ⟨some [botLayerC2, topLayerC2]⟩

/-- A two-layer image in which both layers hold a non-empty regular
`usr/bin/foo` (12 bytes on top, 5 bytes at the bottom). -/
def imgC1 : Img := ⟨some [some [.ent ⟨⟨"usr/bin/foo", .reg, 5⟩, true, true⟩],
                          some [.ent ⟨⟨"usr/bin/foo", .reg, 12⟩, true, true⟩]]⟩

/-- A one-layer image whose single matching entry has a failing header
write (`tw.WriteHeader` errors on it). -/
def imgC5 : Img := ⟨some [some [.ent ⟨⟨"usr/bin/foo", .reg, 12⟩, false, true⟩]]⟩

/-- A one-layer image whose single entry is named with a leading `./`. -/
def imgC9 : Img := ⟨some [some [.ent ⟨⟨"./usr/bin/foo", .reg, 7⟩, true, true⟩]]⟩

/-- A top layer holding a 12-byte `usr/bin/foo` that is matched and fully
written. -/
def topLayerC3 : Layer := some [.ent ⟨⟨"usr/bin/foo", .reg, 12⟩, true, true⟩]

/-- A one-layer image with a directory entry and a 12-byte regular file. -/
def img8 : Img := ⟨some [some [.ent ⟨⟨"etc/", .dir, 0⟩, true, true⟩,
                               .ent ⟨⟨"usr/bin/foo", .reg, 12⟩, true, true⟩]]⟩

/-- The successful result of extracting `fooSpec` from `img8`. -/
def res8 : List FileSpec × WState := (extract img8 [fooSpec] true).toOption.getD default

/-- An inserted key is a key of the map afterwards. -/
theorem mem_insertKey_self (k : String) (m : List String) : k ∈ insertKey k m := by
  by_cases h : k ∈ m <;> simp [insertKey, h]

/-- Once `foundLen` equals the target count, the walk returns at once: the
remaining (deeper) layers are irrelevant and no further stream is opened. -/
theorem walkRev_stop (files : List FileSpec) (ls : List Layer) (s : WState)
    (h : s.found = files.length) : walkRev files ls s = .ok s := by
  cases ls with
  | nil => rfl
  | cons L rest => simp [walkRev, h]

/-- When no target's trimmed `From` equals the header name, the target scan
leaves the state unchanged. -/
theorem scanTargets_eq_of_no_match (hdr : Header) (wh wc : Bool) (ts : List FileSpec)
    (s : WState) (h : ∀ t ∈ ts, trimSlash t.From ≠ hdr.name) :
    scanTargets hdr wh wc ts s = s := by
  induction ts generalizing s with
  | nil => rfl
  | cons f ts ih =>
    have hf : ¬(hdr.name = trimSlash f.From) := fun hh =>
      h f (List.mem_cons_self f ts) hh.symm
    simp only [scanTargets, if_neg hf]
    exact ih s fun t ht => h t (List.mem_cons_of_mem _ ht)

/-- Characterization of the target scan when exactly one target matches the
header name: the raw `From` is inserted into `processedTargets`
unconditionally, the archive gains the header exactly when the header write
succeeds, and `foundLen` grows exactly when both writes succeed. -/
theorem scanTargets_eq_of_match (hdr : Header) (wh wc : Bool) (ts : List FileSpec)
    (s : WState) (t : FileSpec)
    (hnd : (ts.map fun f => trimSlash f.From).Nodup)
    (ht : t ∈ ts) (hm : trimSlash t.From = hdr.name) :
    scanTargets hdr wh wc ts s =
      if wh then
        if wc then
          { s with processed := insertKey t.From s.processed,
                   archive := s.archive ++ [⟨hdr, true⟩],
                   found := s.found + 1 }
        else
          { s with processed := insertKey t.From s.processed,
                   archive := s.archive ++ [⟨hdr, false⟩] }
      else { s with processed := insertKey t.From s.processed } := by
  induction ts generalizing s with
  | nil => exact absurd ht (List.not_mem_nil t)
  | cons f ts ih =>
    rw [List.map_cons, List.nodup_cons] at hnd
    obtain ⟨hnotin, hnd'⟩ := hnd
    by_cases hf : hdr.name = trimSlash f.From
    · have htf : t = f := by
        rcases List.mem_cons.mp ht with h1 | h1
        · exact h1
        · exfalso
          apply hnotin
          have h2 : trimSlash t.From ∈ ts.map fun g => trimSlash g.From :=
            List.mem_map_of_mem (fun g => trimSlash g.From) h1
          rw [hm] at h2
          exact hf ▸ h2
      subst htf
      have hrest : ∀ g ∈ ts, trimSlash g.From ≠ hdr.name := by
        intro g hg hgn
        exact hnotin (hf ▸ hgn ▸ List.mem_map_of_mem (fun g => trimSlash g.From) hg)
      cases wh <;> cases wc <;>
        simp [scanTargets, hf, scanTargets_eq_of_no_match _ _ _ _ _ hrest]
    · have htf : t ∈ ts := by
        rcases List.mem_cons.mp ht with h1 | h1
        · exact absurd (h1 ▸ hm).symm hf
        · exact h1
      simp only [scanTargets, if_neg hf]
      exact ih s hnd' htf

/-- The result loop is `List.filter` on membership of the raw `From` in the
key set of `processedTargets`. -/
theorem reportLocations_eq_filter (p : List String) (fs : List FileSpec) :
    reportLocations p fs = fs.filter fun f => decide (f.From ∈ p) := by
  induction fs with
  | nil => rfl
  | cons f fs ih =>
    by_cases h : f.From ∈ p
    · simp [reportLocations, h, ih]
    · simp [reportLocations, h, ih]

/-- The entry loop only fails on a decode-error item: a stream free of them
is always processed to some successful state, whatever the write oracles
say. -/
theorem procItems_ok_of_no_decodeErr (files : List FileSpec) (items : List TItem)
    (s : WState) (h : TItem.decodeErr ∉ items) :
    ∃ s', procItems files items s = .ok s' := by
  induction items generalizing s with
  | nil => exact ⟨s, rfl⟩
  | cons it rest ih =>
    have hrest : TItem.decodeErr ∉ rest := fun hr => h (List.mem_cons_of_mem _ hr)
    cases it with
    | decodeErr => exact absurd (List.mem_cons_self _ _) h
    | ent e =>
      by_cases h1 : e.header.typeflag = TypeFlag.dir
      · simpa [procItems, h1] using ih _ hrest
      · by_cases h2 : e.header.size = 0
        · simpa [procItems, h1, h2] using ih _ hrest
        · by_cases h3 : (clean e.header.name).length = 0
          · simpa [procItems, h1, h2, h3] using ih _ hrest
          · by_cases h4 : clean e.header.name ∈ s.processed
            · simpa [procItems, h1, h2, h3, h4] using ih _ hrest
            · simp only [procItems, if_neg h1, if_neg h2, if_neg h3, if_neg h4]
              split
              · exact ⟨_, rfl⟩
              · exact ih _ hrest

/-- The walk only fails on a stream that cannot be opened or decoded: if
every layer opens and decodes cleanly, the walk succeeds. -/
theorem walkRev_ok_of_clean (files : List FileSpec) (ls : List Layer) (s : WState)
    (h : ∀ L ∈ ls, ∃ items, L = some items ∧ TItem.decodeErr ∉ items) :
    ∃ s', walkRev files ls s = .ok s' := by
  induction ls generalizing s with
  | nil => exact ⟨s, rfl⟩
  | cons L rest ih =>
    by_cases hf : s.found = files.length
    · exact ⟨s, walkRev_stop files (L :: rest) s hf⟩
    · obtain ⟨items, hL, hno⟩ := h L (List.mem_cons_self _ _)
      obtain ⟨s1, hs1⟩ := procItems_ok_of_no_decodeErr files items
        { s with accessed := s.accessed + 1 } hno
      obtain ⟨s2, hs2⟩ := ih s1 fun L' hL' => h L' (List.mem_cons_of_mem _ hL')
      exact ⟨s2, by simp [walkRev, hf, hL, hs1, hs2]⟩

/-- Every archive entry after a target scan was either already there or
carries exactly the header handed to the scan. -/
theorem scanTargets_archive_cases (hdr : Header) (wh wc : Bool) (ts : List FileSpec)
    (s : WState) :
    ∀ a ∈ (scanTargets hdr wh wc ts s).archive, a ∈ s.archive ∨ a.header = hdr := by
  induction ts generalizing s with
  | nil => exact fun a ha => Or.inl ha
  | cons t ts ih =>
    intro a ha
    by_cases h1 : hdr.name = trimSlash t.From
    · simp only [scanTargets, if_pos h1] at ha
      split at ha
      · split at ha
        · simp only [List.mem_append, List.mem_singleton] at ha
          rcases ha with h | h
          · exact Or.inl h
          · exact Or.inr (by rw [h])
        · rcases ih _ a ha with h | h
          · simp only [List.mem_append, List.mem_singleton] at h
            rcases h with h | h
            · exact Or.inl h
            · exact Or.inr (by rw [h])
          · exact Or.inr h
      · rcases ih _ a ha with h | h
        · exact Or.inl h
        · exact Or.inr h
    · simp only [scanTargets, if_neg h1] at ha
      exact ih _ a ha

/-- The entry loop writes to the archive only headers of non-directory,
non-empty entries (the two skips run before any write can happen). -/
theorem procItems_archive_inv (files : List FileSpec) (items : List TItem)
    (s s' : WState) (h : procItems files items s = .ok s')
    (hs : ∀ a ∈ s.archive, a.header.typeflag ≠ TypeFlag.dir ∧ a.header.size ≠ 0) :
    ∀ a ∈ s'.archive, a.header.typeflag ≠ TypeFlag.dir ∧ a.header.size ≠ 0 := by
  induction items generalizing s with
  | nil =>
    simp only [procItems] at h
    cases h
    exact hs
  | cons it rest ih =>
    cases it with
    | decodeErr => simp [procItems] at h
    | ent e =>
      by_cases h1 : e.header.typeflag = TypeFlag.dir
      · exact ih s (by simpa [procItems, h1] using h) hs
      · by_cases h2 : e.header.size = 0
        · exact ih s (by simpa [procItems, h1, h2] using h) hs
        · by_cases h3 : (clean e.header.name).length = 0
          · exact ih s (by simpa [procItems, h1, h2, h3] using h) hs
          · by_cases h4 : clean e.header.name ∈ s.processed
            · exact ih s (by simpa [procItems, h1, h2, h3, h4] using h) hs
            · simp only [procItems, if_neg h1, if_neg h2, if_neg h3, if_neg h4] at h
              have hscan : ∀ a ∈ (scanTargets { e.header with name := clean e.header.name }
                  e.wHdrOk e.wCopyOk files s).archive,
                  a.header.typeflag ≠ TypeFlag.dir ∧ a.header.size ≠ 0 := by
                intro a ha
                rcases scanTargets_archive_cases _ _ _ _ _ a ha with hh | hh
                · exact hs a hh
                · rw [hh]
                  exact ⟨h1, h2⟩
              split at h
              · cases h
                exact hscan
              · exact ih _ h hscan

/-- The walk writes to the archive only headers of non-directory, non-empty
entries. -/
theorem walkRev_archive_inv (files : List FileSpec) (ls : List Layer)
    (s s' : WState) (h : walkRev files ls s = .ok s')
    (hs : ∀ a ∈ s.archive, a.header.typeflag ≠ TypeFlag.dir ∧ a.header.size ≠ 0) :
    ∀ a ∈ s'.archive, a.header.typeflag ≠ TypeFlag.dir ∧ a.header.size ≠ 0 := by
  induction ls generalizing s with
  | nil =>
    simp only [walkRev] at h
    cases h
    exact hs
  | cons L rest ih =>
    by_cases hf : s.found = files.length
    · rw [walkRev_stop files (L :: rest) s hf] at h
      cases h
      exact hs
    · simp only [walkRev, if_neg hf] at h
      cases L with
      | none => simp at h
      | some items =>
        simp only at h
        cases hp : procItems files items { s with accessed := s.accessed + 1 } with
        | error e => rw [hp] at h; simp at h
        | ok s1 =>
          rw [hp] at h
          simp only at h
          exact ih s1 h (procItems_archive_inv files items _ s1 hp hs)

/-- C1: the claim states that once a path is added to `processedTargets` no
deeper layer's copy is ever written again.  Evaluating the code on a
two-layer image in which both layers hold a non-empty regular
`usr/bin/foo` and the target list is `[/usr/bin/foo, /usr/bin/zzz]` shows
the opposite: the skip test looks up the cleaned header name
`usr/bin/foo`, while the map key inserted is the raw `/usr/bin/foo`, so
the lookup never hits and the bottom layer's 5-byte copy is written to the
archive after the top layer's 12-byte copy, with `foundLen` ending at 2
although only one target was resolved. -/
theorem C1_deeper_copy_written_again :
    extract imgC1 [fooSpec, zzzSpec] true =
      .ok ([fooSpec],
        ⟨["/usr/bin/foo"],
         [⟨⟨"usr/bin/foo", .reg, 12⟩, true⟩, ⟨⟨"usr/bin/foo", .reg, 5⟩, true⟩],
         2, 2⟩) := rfl

/-- C2: the claim expects the end-to-end scenario to write exactly the top
layer's 12-byte `usr/bin/foo` and the bottom layer's 3-byte `usr/bin/bar`.
Evaluating the code shows the returned location list is indeed
`[/usr/bin/foo, /usr/bin/bar]` with no error, but the archive holds a
third entry: the bottom layer's superseded 5-byte `usr/bin/foo`, written
because the `processedTargets` lookup key does not match the inserted
key. -/
theorem C2_scenario_evaluation :
    extract imgC2 [fooSpec, barSpec, missingSpec] true =
      .ok ([fooSpec, barSpec],
        ⟨["/usr/bin/bar", "/usr/bin/foo"],
         [⟨⟨"usr/bin/foo", .reg, 12⟩, true⟩,
          ⟨⟨"usr/bin/foo", .reg, 5⟩, true⟩,
          ⟨⟨"usr/bin/bar", .reg, 3⟩, true⟩],
         3, 2⟩) := rfl

/-- C3: as soon as `foundLen` equals the target count the walk returns at
once, for every image, target list and state, so no deeper layer's stream
is opened; in particular an image whose single target is matched and fully
written in the topmost layer yields a successful result with exactly one
stream access, whatever the bottom layer is — including one whose opening
would fail or whose stream would raise a decode error. -/
theorem C3_early_termination :
    (∀ (files : List FileSpec) (ls : List Layer) (s : WState),
        s.found = files.length → walkRev files ls s = .ok s)
    ∧ ∀ bad : Layer,
        extract ⟨some [bad, topLayerC3]⟩ [fooSpec] true =
          .ok ([fooSpec],
            ⟨["/usr/bin/foo"], [⟨⟨"usr/bin/foo", .reg, 12⟩, true⟩], 1, 1⟩) := by
  constructor
  · exact walkRev_stop
  · intro bad
    rfl

/-- Witness for C3 at concrete inputs: a satisfied state stops the walk
before the failing layer, and a bottom layer raising a decode error is
never accessed. -/
theorem C3_early_termination_witness :
    walkRev [fooSpec] [none] ⟨["/usr/bin/foo"], [], 1, 0⟩ =
      .ok ⟨["/usr/bin/foo"], [], 1, 0⟩
    ∧ extract ⟨some [some [TItem.decodeErr], topLayerC3]⟩ [fooSpec] true =
        .ok ([fooSpec],
          ⟨["/usr/bin/foo"], [⟨⟨"usr/bin/foo", .reg, 12⟩, true⟩], 1, 1⟩) :=
  ⟨C3_early_termination.1 [fooSpec] [none] ⟨["/usr/bin/foo"], [], 1, 0⟩ rfl,
   C3_early_termination.2 (some [TItem.decodeErr])⟩

/-- C6: the result reporter is exactly the in-order filter of the caller's
`FileSpec` list on membership of the raw `From` path in the resolved set:
it returns a sub-sequence of the original list (hence in declaration
order), containing precisely the specs whose `From` is resolved, and
unresolved targets are merely absent, never an error. -/
theorem C6_report_ordered_filter (p : List String) (fs : List FileSpec) :
    reportLocations p fs = (fs.filter fun f => decide (f.From ∈ p))
    ∧ (reportLocations p fs).Sublist fs
    ∧ ∀ f : FileSpec, f ∈ reportLocations p fs ↔ f ∈ fs ∧ f.From ∈ p := by
  refine ⟨reportLocations_eq_filter p fs, ?_, ?_⟩
  · rw [reportLocations_eq_filter]
    exact List.filter_sublist fs
  · intro f
    rw [reportLocations_eq_filter]
    simp [List.mem_filter]

/-- C9: matching strips a single leading separator from the target's
`From` and canonicalizes the tar entry name, so `/usr/bin/foo` matches an
entry named `./usr/bin/foo`: `trimSlash` removes exactly one leading `/`
from any string, `clean` collapses the leading `./`, the two normal forms
coincide on the claimed pair, and a full extraction of `/usr/bin/foo` from
an image whose only entry is named `./usr/bin/foo` resolves the target
(writing the cleaned name into the archive). -/
theorem C9_path_normalization :
    (∀ s : String, trimSlash ("/" ++ s) = s)
    ∧ clean "./usr/bin/foo" = "usr/bin/foo"
    ∧ trimSlash "/usr/bin/foo" = clean "./usr/bin/foo"
    ∧ extract imgC9 [fooSpec] true =
        .ok ([fooSpec],
          ⟨["/usr/bin/foo"], [⟨⟨"usr/bin/foo", .reg, 7⟩, true⟩], 1, 1⟩) := by
  refine ⟨?_, rfl, rfl, rfl⟩
  intro s
  obtain ⟨l⟩ := s
  rfl

/-- C10: with an empty target list the walk stops before opening any layer
stream (`foundLen` 0 already equals the target count 0), nothing is
written to the archive, and the result is an empty location list with no
error — for every layer list. -/
theorem C10_empty_target_list (layers : List Layer) :
    extract ⟨some layers⟩ [] true = .ok ([], ⟨[], [], 0, 0⟩) := by
  have h := walkRev_stop [] layers.reverse ⟨[], [], 0, 0⟩ rfl
  simp [extract, h, reportLocations]

/-- C4: when the uniquely matching entry's header or content write fails,
the entry loop neither aborts nor errors: it is exactly the loop on the
remaining entries, from a state whose `foundLen` is unchanged (the entry is
not counted), whose `processedTargets` gained the matched `From`, and whose
archive gained at most the bare header (when only the content write
failed) — so one entry's write failure never prevents extraction of the
remaining targets.  Targets are assumed pairwise distinct after
normalization, as a Go tar stream re-read of the same entry content is not
modelled. -/
theorem C4_write_failure_nonfatal
    (files : List FileSpec) (t : FileSpec) (h : Header) (wh wc : Bool)
    (rest : List TItem) (s : WState)
    (hnd : (files.map fun f => trimSlash f.From).Nodup)
    (ht : t ∈ files)
    (hm : trimSlash t.From = clean h.name)
    (hdir : h.typeflag ≠ TypeFlag.dir)
    (hsz : h.size ≠ 0)
    (hlen : (clean h.name).length ≠ 0)
    (hproc : clean h.name ∉ s.processed)
    (hfound : s.found ≠ files.length)
    (hfail : wh = false ∨ wc = false) :
    procItems files (TItem.ent ⟨h, wh, wc⟩ :: rest) s =
      procItems files rest
        { s with processed := insertKey t.From s.processed,
                 archive := s.archive ++
                   (if wh then [⟨{ h with name := clean h.name }, false⟩] else []) } := by
  have hscan := scanTargets_eq_of_match { h with name := clean h.name } wh wc files s t
    hnd ht hm
  simp only [procItems]
  rw [if_neg hdir, if_neg hsz, if_neg hlen, if_neg hproc, hscan]
  rcases hfail with hf | hf
  · subst hf
    simp [hfound]
  · subst hf
    cases wh <;> simp [hfound]

/-- Witness for C4: a one-target list with a matching 12-byte entry whose
header write fails reduces to processing the remaining (empty) stream with
the target marked processed, nothing archived and `foundLen` still 0. -/
theorem C4_write_failure_nonfatal_witness :
    procItems [fooSpec] [TItem.ent ⟨⟨"usr/bin/foo", .reg, 12⟩, false, true⟩] ⟨[], [], 0, 0⟩ =
      procItems [fooSpec] [] ⟨["/usr/bin/foo"], [], 0, 0⟩ :=
  C4_write_failure_nonfatal [fooSpec] fooSpec ⟨"usr/bin/foo", .reg, 12⟩ false true []
    ⟨[], [], 0, 0⟩ (by decide) (by decide) (by decide) (by decide) (by decide) (by decide)
    (by decide) (by decide) (Or.inl rfl)

/-- C5: the matched target's raw `From` is inserted into
`processedTargets` before the writes are attempted, so it is a key of the
final set whatever the two write oracles say; any spec whose `From` is in
the set appears in the reported list; and a full extraction whose only
matching entry has a failing header write still returns the target in the
location list while the archive stays empty and `foundLen` stays 0. -/
theorem C5_resolved_before_write :
    (∀ (hdr : Header) (wh wc : Bool) (ts : List FileSpec) (s : WState) (t : FileSpec),
        (ts.map fun f => trimSlash f.From).Nodup → t ∈ ts → trimSlash t.From = hdr.name →
        t.From ∈ (scanTargets hdr wh wc ts s).processed)
    ∧ (∀ (p : List String) (fs : List FileSpec) (f : FileSpec),
        f ∈ fs → f.From ∈ p → f ∈ reportLocations p fs)
    ∧ extract imgC5 [fooSpec] true =
        .ok ([fooSpec], ⟨["/usr/bin/foo"], [], 0, 1⟩) := by
  refine ⟨?_, ?_, rfl⟩
  · intro hdr wh wc ts s t hnd ht hm
    rw [scanTargets_eq_of_match hdr wh wc ts s t hnd ht hm]
    cases wh <;> cases wc <;> exact mem_insertKey_self t.From s.processed
  · intro p fs f hf hp
    rw [reportLocations_eq_filter]
    simp [List.mem_filter, hf, hp]

/-- Witness for C5: the scan with a failing header write records
`/usr/bin/foo` as processed, and the reporter keeps a spec whose `From` is
in the resolved set. -/
theorem C5_resolved_before_write_witness :
    "/usr/bin/foo" ∈ (scanTargets ⟨"usr/bin/foo", .reg, 12⟩ false true [fooSpec]
      ⟨[], [], 0, 0⟩).processed
    ∧ fooSpec ∈ reportLocations ["/usr/bin/foo"] [fooSpec] :=
  ⟨C5_resolved_before_write.1 ⟨"usr/bin/foo", .reg, 12⟩ false true [fooSpec] ⟨[], [], 0, 0⟩
      fooSpec (by decide) (by decide) (by decide),
   C5_resolved_before_write.2.1 ["/usr/bin/foo"] [fooSpec] fooSpec (by decide) (by decide)⟩

/-- C7: `Extract` errors exactly at the four fatal stages: layer
enumeration failure and destination-creation failure abort before any
walk; a layer whose stream cannot be opened aborts the walk the moment it
is reached, whatever comes after; a decode error aborts the entry loop the
moment it is reached, whatever comes after; and when enumeration and
creation succeed and every layer opens and decodes cleanly, the extraction
always succeeds (write failures and unmatched targets never produce an
error).  In the error cases the `Except.error` result carries no location
list, modelling the `nil` slice returned with the error. -/
theorem C7_fatal_error_taxonomy :
    (∀ (files : List FileSpec) (c : Bool), extract ⟨none⟩ files c = .error .layersErr)
    ∧ (∀ (layers : List Layer) (files : List FileSpec),
        extract ⟨some layers⟩ files false = .error .createErr)
    ∧ (∀ (files : List FileSpec) (rest : List Layer) (s : WState),
        s.found ≠ files.length → walkRev files (none :: rest) s = .error .uncompressedErr)
    ∧ (∀ (files : List FileSpec) (rest : List TItem) (s : WState),
        procItems files (TItem.decodeErr :: rest) s = .error .tarErr)
    ∧ ∀ (layers : List Layer) (files : List FileSpec),
        (∀ L ∈ layers, ∃ items, L = some items ∧ TItem.decodeErr ∉ items) →
        (extract ⟨some layers⟩ files true).isOk = true := by
  refine ⟨fun files c => rfl, fun layers files => rfl, ?_, fun files rest s => rfl, ?_⟩
  · intro files rest s hf
    simp [walkRev, hf]
  · intro layers files h
    obtain ⟨s', hs⟩ := walkRev_ok_of_clean files layers.reverse ⟨[], [], 0, 0⟩
      fun L hL => h L (List.mem_reverse.mp hL)
    simp [extract, hs, Except.isOk, Except.toBool]

/-- Witness for C7: a reached unopenable layer errors at once, and an
image whose single layer is an empty clean stream extracts successfully
even though its target is never found. -/
theorem C7_fatal_error_taxonomy_witness :
    walkRev [fooSpec] [none] ⟨[], [], 0, 0⟩ = .error .uncompressedErr
    ∧ (extract ⟨some [some []]⟩ [fooSpec] true).isOk = true :=
  ⟨C7_fatal_error_taxonomy.2.2.1 [fooSpec] [] ⟨[], [], 0, 0⟩ (by decide),
   C7_fatal_error_taxonomy.2.2.2.2 [some []] [fooSpec] (by
     intro L hL
     rw [List.mem_singleton] at hL
     exact ⟨[], hL, List.not_mem_nil _⟩)⟩

/-- C8: no directory-typed entry and no zero-size entry is ever written to
the output archive, whatever the image, target list and creation outcome:
every archive entry of a successful extraction has a non-directory type
flag and a non-zero size. -/
theorem C8_no_dir_no_empty_written (img : Img) (files : List FileSpec) (c : Bool)
    (res : List FileSpec × WState) (h : extract img files c = .ok res) :
    (res.2.archive.all fun a =>
      decide (a.header.typeflag ≠ TypeFlag.dir ∧ a.header.size ≠ 0)) = true := by
  obtain ⟨layersOpt⟩ := img
  cases layersOpt with
  | none => simp [extract] at h
  | some layers =>
    cases c with
    | false => simp [extract] at h
    | true =>
      simp only [extract] at h
      cases hw : walkRev files layers.reverse ⟨[], [], 0, 0⟩ with
      | error e => rw [hw] at h; simp at h
      | ok s =>
        rw [hw] at h
        simp only at h
        cases h
        have hinv := walkRev_archive_inv files layers.reverse ⟨[], [], 0, 0⟩ s hw
          (by intro a ha; exact absurd ha (List.not_mem_nil a))
        rw [List.all_eq_true]
        intro a ha
        exact decide_eq_true (hinv a ha)

/-- Witness for C8 on a concrete image holding a directory entry and a
12-byte regular file. -/
theorem C8_no_dir_no_empty_written_witness :
    (res8.2.archive.all fun a =>
      decide (a.header.typeflag ≠ TypeFlag.dir ∧ a.header.size ≠ 0)) = true :=
  C8_no_dir_no_empty_written img8 [fooSpec] true res8 rfl

end ImgExtract
